import Mathlib

/-!
Verification development for the brainfuck optimizing interpreter
(`src/main.rs`).  The Rust source is shallowly embedded: machine integers
become `Nat`/`Int` with explicit `% 2 ^ w` where wrapping matters, in-place
vector mutation becomes functional list surgery, and the interpreter's main
loop is fuel-indexed (the fuel only bounds the number of executed
instructions; the driver loops of the passes use a fuel that provably
suffices because the pass index strictly increases while the list never
grows).
-/

namespace BF

/-- `Token`, from `enum Token` in the source. -/
inductive Token
  | Shl
  | Shr
  | Inc
  | Dec
  | Output
  | Input
  | LSquare
  | RSquare
  deriving DecidableEq, Repr

/-- `Token::is_combinable`. -/
def Token.is_combinable : Token → Bool
  | .Shl | .Shr | .Inc | .Dec => true
  | .Output | .Input | .LSquare | .RSquare => false

/-- `Instruction`, from `enum Instruction` in the source.  Counts are the
`u16`/`u8` payloads read as naturals, offsets are the `i16` payloads read as
integers, and jump targets are the `u32` payloads read as naturals. -/
inductive Instruction
  | Shl (n : Nat)
  | Shr (n : Nat)
  | Inc (n : Nat)
  | Dec (n : Nat)
  | Output
  | Input
  | JumpZ (t : Nat)
  | JumpNz (t : Nat)
  | Zero (o : Int)
  | Add (o : Int)
  | Sub (o : Int)
  | AddMul (o : Int) (n : Int)
  deriving DecidableEq, Repr

/-- The tokenizer: the byte-to-token table of `main`, one `Option Token` per
source character, every unrecognized character dropped. -/
def tokenOf : Char → Option Token
  | '<' => some .Shl
  | '>' => some .Shr
  | '+' => some .Inc
  | '-' => some .Dec
  | '.' => some .Output
  | ',' => some .Input
  | '[' => some .LSquare
  | ']' => some .RSquare
  | _ => none

def tokenize (cs : List Char) : List Token :=
  cs.filterMap tokenOf

/-- `chunk_by(|a, b| a.is_combinable() && a == b)`: maximal runs of equal
combinable tokens, each kept with its length. -/
def chunkGo (t : Token) (n : Nat) : List Token → List (Token × Nat)
  | [] => [(t, n)]
  | u :: us =>
    if t.is_combinable && t == u then chunkGo t (n + 1) us
    else (t, n) :: chunkGo u 1 us

def chunkBy : List Token → List (Token × Nat)
  | [] => []
  | t :: ts => chunkGo t 1 ts

/-- One chunk to one instruction, as in the `map` of `main`.  The Rust casts
`chunk.len() as u16` / `as u8` truncate, hence `% 2 ^ 16` / `% 2 ^ 8`. -/
def combineChunk : Token × Nat → Instruction
  | (.Shl, l) => .Shl (l % 2 ^ 16)
  | (.Shr, l) => .Shr (l % 2 ^ 16)
  | (.Inc, l) => .Inc (l % 2 ^ 8)
  | (.Dec, l) => .Dec (l % 2 ^ 8)
  | (.Output, _) => .Output
  | (.Input, _) => .Input
  | (.LSquare, _) => .JumpZ 0
  | (.RSquare, _) => .JumpNz 0

/-- The combiner stage of `main`. -/
def combine (ts : List Token) : List Instruction :=
  (chunkBy ts).map combineChunk

/-- Whether the exact three-instruction zero-loop pattern
`JumpZ(_), Dec(1), JumpNz(_)` sits at position `j`. -/
def patAt (instrs : List Instruction) (j : Nat) : Bool :=
  match instrs[j]?, instrs[j + 1]?, instrs[j + 2]? with
  | some (.JumpZ _), some (.Dec 1), some (.JumpNz _) => true
  | _, _, _ => false

/-- The zero-register pass of `main` (`while i + 3 < instructions.len()`),
fuel-indexed; `drain(i..i+3)` followed by `insert(i, Zero(0))` is the list
splice below, and the scan continues at `i + 1`.  Each iteration consumes one
unit of fuel and the list never grows, so `instrs.length` units suffice. -/
def zeroPassGo : Nat → List Instruction → Nat → List Instruction
  | 0, instrs, _ => instrs
  | fuel + 1, instrs, i =>
    if i + 3 < instrs.length then
      if patAt instrs i then
        zeroPassGo fuel (instrs.take i ++ .Zero 0 :: instrs.drop (i + 3)) (i + 1)
      else
        zeroPassGo fuel instrs (i + 1)
    else instrs

def zeroPass (instrs : List Instruction) : List Instruction :=
  zeroPassGo instrs.length instrs 0

/-- `IterationDiff`, from the source. -/
inductive IterationDiff
  | Diff (d : Int)
  | Zeroed
  | ZeroedDiff (d : Int)
  deriving DecidableEq, Repr

/-- `IterationDiff::inc`. -/
def IterationDiff.inc : IterationDiff → Nat → IterationDiff
  | .Diff d, n => .Diff (d + n)
  | .ZeroedDiff d, n => .ZeroedDiff (d + n)
  | .Zeroed, n => .ZeroedDiff n

/-- `IterationDiff::dec`. -/
def IterationDiff.dec : IterationDiff → Nat → IterationDiff
  | .Diff d, n => .Diff (d - n)
  | .ZeroedDiff d, n => .ZeroedDiff (d - n)
  | .Zeroed, n => .ZeroedDiff (-(n : Int))

/-- `IterationDiff::zero`. -/
def IterationDiff.zero : IterationDiff → IterationDiff
  | _ => .Zeroed

/-- The forward scan of `arithmetic_loop_pass` that looks for the first
bracket after the opening `JumpZ`: a nested `JumpZ` aborts (`none`), a
`JumpNz` at relative position `j` yields `some j`. -/
def findEnd : List Instruction → Option Nat
  | [] => none
  | .JumpZ _ :: _ => none
  | .JumpNz _ :: _ => some 0
  | _ :: rest => (findEnd rest).map (· + 1)

/-- The body analysis of `arithmetic_loop_pass`: running `offset`, the
induction summary, and `num_arith`; a forbidden body instruction
(`Output`, `Input`, bracket, or synthesized `Add`/`Sub`/`AddMul`) yields
`none`. -/
def bodyScan : Int → IterationDiff → Nat → List Instruction →
    Option (Int × IterationDiff × Nat)
  | offset, diff, na, [] => some (offset, diff, na)
  | offset, diff, na, inst :: rest =>
    match inst with
    | .Shl n => bodyScan (offset - n) diff na rest
    | .Shr n => bodyScan (offset + n) diff na rest
    | .Inc n =>
      if offset = 0 then bodyScan offset (diff.inc n) na rest
      else bodyScan offset diff (na + 1) rest
    | .Dec n =>
      if offset = 0 then bodyScan offset (diff.dec n) na rest
      else bodyScan offset diff (na + 1) rest
    | .Zero o =>
      if offset + o = 0 then bodyScan offset diff.zero na rest
      else bodyScan offset diff (na + 1) rest
    | _ => none

/-- The replacement builder of `arithmetic_loop_pass` (its second traversal
of the loop body).  `Dec(1)` becomes `Sub(offset)` and `Dec(n)` with `n ≠ 1`
becomes `AddMul(offset, -n)`; the catch-all mirrors the `unreachable!()`. -/
def buildReps : Int → List Instruction → List Instruction
  | _, [] => []
  | offset, inst :: rest =>
    match inst with
    | .Shl n => buildReps (offset - n) rest
    | .Shr n => buildReps (offset + n) rest
    | .Inc n =>
      if offset ≠ 0 then
        (if n = 1 then .Add offset else .AddMul offset n) :: buildReps offset rest
      else buildReps offset rest
    | .Dec n =>
      if offset ≠ 0 then
        (if n = 1 then .Sub offset else .AddMul offset (-(n : Int))) ::
          buildReps offset rest
      else buildReps offset rest
    | .Zero o =>
      if offset + o ≠ 0 then .Zero (offset + o) :: buildReps offset rest
      else buildReps offset rest
    | _ => []

/-- `arithmetic_loop_pass`.  The second component records the infinite-loop
warning: `some (lo, hi)` means the warning was printed for the source range
`lo..hi`.  The splice over `start - 1..end + 1` is the take/append/drop. -/
def arithPass (instrs : List Instruction) (i : Nat) :
    List Instruction × Option (Nat × Nat) :=
  match instrs[i]? with
  | some (.JumpZ _) =>
    match findEnd (instrs.drop (i + 1)) with
    | none => (instrs, none)
    | some rel =>
      match bodyScan 0 (.Diff 0) 0 ((instrs.drop (i + 1)).take rel) with
      | none => (instrs, none)
      | some (offset, diff, _numArith) =>
        if offset ≠ 0 then (instrs, none)
        else
          match diff with
          | .Diff d =>
            if d = -1 then
              (instrs.take i ++
                (buildReps 0 ((instrs.drop (i + 1)).take rel) ++ [.Zero 0]) ++
                instrs.drop (i + 1 + rel + 1), none)
            else (instrs, none)
          | .Zeroed => (instrs, none)
          | .ZeroedDiff d =>
            if d = 0 then (instrs, none)
            else (instrs, some (i, i + 1 + rel + 1))
  | _ => (instrs, none)

/-- The driver loop of `main` over `arithmetic_loop_pass`
(`while i < instructions.len() { pass; i += 1 }`), fuel-indexed; the index
strictly increases and the list never grows, so `instrs.length` fuel
suffices. -/
def arithAllGo : Nat → List Instruction → Nat → List Instruction
  | 0, instrs, _ => instrs
  | fuel + 1, instrs, i =>
    if i < instrs.length then arithAllGo fuel (arithPass instrs i).1 (i + 1)
    else instrs

def arithAll (instrs : List Instruction) : List Instruction :=
  arithAllGo instrs.length instrs 0

/-- The two optimization passes in the order `main` runs them. -/
def optimize (instrs : List Instruction) : List Instruction :=
  arithAll (zeroPass instrs)

/-- The jump linker of `main`.  It walks the list keeping the stack of
pending `JumpZ` positions; a closing `JumpNz` at absolute position `c` with
matching opener `o` receives target `o + 1` and writes `c + 1` into the
opener.  The relinked tail is returned together with the targets assigned to
the still-stacked openers (innermost first); `none` models the
`unreachable!("mismatched brackets")` panics. -/
def linkGo (i : Nat) (stack : List Nat) :
    List Instruction → Option (List Instruction × List Nat)
  | [] => if stack.isEmpty then some ([], []) else none
  | .JumpZ _ :: rest =>
    match linkGo (i + 1) (i :: stack) rest with
    | some (rest', t :: ts) => some (.JumpZ t :: rest', ts)
    | _ => none
  | .JumpNz _ :: rest =>
    match stack with
    | [] => none
    | o :: s =>
      match linkGo (i + 1) s rest with
      | some (rest', ts) => some (.JumpNz (o + 1) :: rest', (i + 1) :: ts)
      | none => none
  | inst :: rest =>
    match linkGo (i + 1) stack rest with
    | some (rest', ts) => some (inst :: rest', ts)
    | none => none

def link (instrs : List Instruction) : Option (List Instruction) :=
  (linkGo 0 [] instrs).map (·.1)

/-- Bracket-depth check: `true` iff scanning from depth `d` never pops an
empty stack and ends back at depth `0`. -/
def bTrack : Nat → List Instruction → Bool
  | d, [] => d == 0
  | d, .JumpZ _ :: rest => bTrack (d + 1) rest
  | d, .JumpNz _ :: rest =>
    match d with
    | 0 => false
    | d' + 1 => bTrack d' rest
  | d, _ :: rest => bTrack d rest

/-- `NUM_REGISTERS`, from `run`. -/
def NUM_REGISTERS : Nat := 30000

/-- Interpreter state: cell pointer, the tape, remaining stdin bytes, and
the bytes written to stdout so far. -/
structure St where
  rp : Nat
  registers : List Nat
  inp : List Nat
  out : List Nat
  deriving Repr

/-- The interpreter's initial state (`run`): `rp = 0` and
`[0u8; NUM_REGISTERS]`. -/
def initSt (input : List Nat) : St :=
  { rp := 0, registers := List.replicate NUM_REGISTERS 0, inp := input, out := [] }

/-- The `Shl` pointer move (`rp -= n as usize`). -/
def shlPtr (rp n : Nat) : Nat := rp - n

/-- The `Shr` pointer move (`rp += n as usize`). -/
def shrPtr (rp n : Nat) : Nat := rp + n

/-- Wrapping-add on a cell (`wrapping_add`). -/
def incCell (v n : Nat) : Nat := (v + n) % 256

/-- Wrapping-sub on a cell (`wrapping_sub`). -/
def decCell (v n : Nat) : Nat := (v + (256 - n % 256)) % 256

/-- The `AddMul` cell update: low byte of the wrapping `i16` product, added
with wrap (`(n.wrapping_mul(v as i16)) as u8`). -/
def addMulCell (v : Nat) (n : Int) (w : Nat) : Nat :=
  (w + ((n * v) % 256).toNat) % 256

/-- The interpreter loop of `run`, fuel-indexed (one unit per executed
instruction); `none` means the fuel ran out or an access panicked
(out-of-bounds index / pointer underflow). -/
def runGo (instrs : List Instruction) : Nat → Nat → St → Option St
  | 0, _, _ => none
  | fuel + 1, ip, st =>
    match instrs.get? ip with
    | none => some st
    | some inst =>
      match inst with
      | .Shl n =>
        if n ≤ st.rp then runGo instrs fuel (ip + 1) { st with rp := shlPtr st.rp n }
        else none
      | .Shr n => runGo instrs fuel (ip + 1) { st with rp := shrPtr st.rp n }
      | .Inc n =>
        match st.registers.get? st.rp with
        | none => none
        | some v =>
          runGo instrs fuel (ip + 1)
            { st with registers := st.registers.set st.rp (incCell v n) }
      | .Dec n =>
        match st.registers.get? st.rp with
        | none => none
        | some v =>
          runGo instrs fuel (ip + 1)
            { st with registers := st.registers.set st.rp (decCell v n) }
      | .Output =>
        match st.registers.get? st.rp with
        | none => none
        | some v => runGo instrs fuel (ip + 1) { st with out := st.out ++ [v] }
      | .Input =>
        match st.inp with
        | [] => runGo instrs fuel (ip + 1) st
        | b :: bs =>
          match st.registers.get? st.rp with
          | none => none
          | some _ =>
            runGo instrs fuel (ip + 1)
              { st with registers := st.registers.set st.rp (b % 256), inp := bs }
      | .JumpZ idx =>
        match st.registers.get? st.rp with
        | none => none
        | some v =>
          if v = 0 then runGo instrs fuel idx st
          else runGo instrs fuel (ip + 1) st
      | .JumpNz idx =>
        match st.registers.get? st.rp with
        | none => none
        | some v =>
          if v > 0 then runGo instrs fuel idx st
          else runGo instrs fuel (ip + 1) st
      | .Zero o =>
        let j : Int := (st.rp : Int) + o
        match st.registers.get? j.toNat with
        | some _ =>
          if 0 ≤ j then
            runGo instrs fuel (ip + 1) { st with registers := st.registers.set j.toNat 0 }
          else none
        | none => none
      | .Add o =>
        match st.registers.get? st.rp with
        | none => none
        | some v =>
          let j : Int := (st.rp : Int) + o
          match st.registers.get? j.toNat with
          | some w =>
            if 0 ≤ j then
              runGo instrs fuel (ip + 1)
                { st with registers := st.registers.set j.toNat (incCell w v) }
            else none
          | none => none
      | .Sub o =>
        match st.registers.get? st.rp with
        | none => none
        | some v =>
          let j : Int := (st.rp : Int) + o
          match st.registers.get? j.toNat with
          | some w =>
            if 0 ≤ j then
              runGo instrs fuel (ip + 1)
                { st with registers := st.registers.set j.toNat (decCell w v) }
            else none
          | none => none
      | .AddMul o n =>
        match st.registers.get? st.rp with
        | none => none
        | some v =>
          let j : Int := (st.rp : Int) + o
          match st.registers.get? j.toNat with
          | some w =>
            if 0 ≤ j then
              runGo instrs fuel (ip + 1)
                { st with registers := st.registers.set j.toNat (addMulCell v n w) }
            else none
          | none => none

/-- Link a program and interpret it from the initial state, observing the
output bytes. -/
def pipeOut (instrs : List Instruction) (input : List Nat) (fuel : Nat) :
    Option (List Nat) :=
  (link instrs).bind fun q => (runGo q fuel 0 (initSt input)).map St.out

/-- Modelled from the spec: the repository source (`src/main.rs`) contains no
dead-code-elimination pass, so the matcher below follows §4.5 of the spec.
Find the relative index of the `JumpNz` matching at nesting depth `d`
("matching is by bracket nesting depth"). -/
def matchRel (d : Nat) : List Instruction → Option Nat
  | [] => none
  | .JumpZ _ :: rest => (matchRel (d + 1) rest).map (· + 1)
  | .JumpNz _ :: rest =>
    match d with
    | 0 => some 0
    | d' + 1 => (matchRel d' rest).map (· + 1)
  | _ :: rest => (matchRel d rest).map (· + 1)

/-- The all-zero simulated tape of the DCE symbolic executor. -/
def zeroTape : Nat → Nat := fun _ => 0

/-- Functional update of a simulated tape. -/
def updTape (tape : Nat → Nat) (i v : Nat) : Nat → Nat :=
  fun k => if k = i then v else tape k

/-- Modelled from the spec: the repository source (`src/main.rs`) contains no
dead-code-elimination pass; this symbolic executor follows §4.5 of the spec.
It keeps a simulated tape and pointer; `Shl`/`Shr` move the pointer,
arithmetic updates the tape, a `JumpZ` over a zero simulated cell deletes the
whole range through its matching `JumpNz` inclusive and continues there, and
a `JumpZ` over a nonzero cell, a `JumpNz`, `Output` or `Input` stops the
pass, returning the processed prefix (`done`, reversed) plus the untouched
remainder.  One unit of fuel consumes at least one instruction of `rest`, so
`rest.length` units suffice. -/
def dceGo : Nat → (Nat → Nat) → Nat → List Instruction → List Instruction →
    List Instruction
  | 0, _, _, done, rest => done.reverse ++ rest
  | fuel + 1, tape, p, done, rest =>
    match rest with
    | [] => done.reverse
    | inst :: rest' =>
      match inst with
      | .Shl n => dceGo fuel tape (p - n) (inst :: done) rest'
      | .Shr n => dceGo fuel tape (p + n) (inst :: done) rest'
      | .Inc n => dceGo fuel (updTape tape p (incCell (tape p) n)) p (inst :: done) rest'
      | .Dec n => dceGo fuel (updTape tape p (decCell (tape p) n)) p (inst :: done) rest'
      | .Zero o =>
        dceGo fuel (updTape tape ((p : Int) + o).toNat 0) p (inst :: done) rest'
      | .Add o =>
        dceGo fuel
          (updTape tape ((p : Int) + o).toNat
            (incCell (tape ((p : Int) + o).toNat) (tape p))) p (inst :: done) rest'
      | .Sub o =>
        dceGo fuel
          (updTape tape ((p : Int) + o).toNat
            (decCell (tape ((p : Int) + o).toNat) (tape p))) p (inst :: done) rest'
      | .AddMul o n =>
        dceGo fuel
          (updTape tape ((p : Int) + o).toNat
            (addMulCell (tape p) n (tape ((p : Int) + o).toNat))) p (inst :: done) rest'
      | .JumpZ _ =>
        if tape p = 0 then
          match matchRel 0 rest' with
          | some rel => dceGo fuel tape p done (rest'.drop (rel + 1))
          | none => done.reverse ++ rest
        else done.reverse ++ rest
      | .JumpNz _ => done.reverse ++ rest
      | .Output => done.reverse ++ rest
      | .Input => done.reverse ++ rest

/-- Modelled from the spec: the DCE pass over a whole program, starting from
the all-zero simulated tape with the pointer at 0. -/
def dce (instrs : List Instruction) : List Instruction :=
  dceGo instrs.length zeroTape 0 [] instrs

/-! ## Combiner lemmas -/

lemma chunkGo_replicate (t : Token) (h : t.is_combinable = true) :
    ∀ (m k : Nat), chunkGo t k (List.replicate m t) = [(t, k + m)] := by
  intro m
  induction m with
  | zero => intro k; simp [chunkGo]
  | succ m ih =>
    intro k
    rw [List.replicate_succ]
    show chunkGo t k (t :: List.replicate m t) = [(t, k + (m + 1))]
    simp only [chunkGo, h, beq_self_eq_true, Bool.and_self, if_true]
    rw [ih (k + 1)]
    have hk : k + 1 + m = k + (m + 1) := by omega
    rw [hk]

/-- **C4** (counterexample): the tape constant of the interpreter is 30000,
not 2 ^ 15 = 32768 as the claim states. -/
theorem numRegisters_ne_two_pow_fifteen : NUM_REGISTERS ≠ 2 ^ 15 := by decide

/-- **C4** (amended): the interpreter's tape is a fixed-size array of
unsigned 8-bit cells of size 30000, with the cell pointer starting at index 0
and all cells initially zero. -/
theorem initial_state_spec : ∀ (input : List Nat),
    NUM_REGISTERS = 30000 ∧ (initSt input).rp = 0 ∧
    (initSt input).registers.length = NUM_REGISTERS ∧
    ∀ (k v : Nat), (initSt input).registers[k]? = some v → v = 0 := by
  intro input
  refine ⟨rfl, rfl, by simp [initSt], ?_⟩
  intro k v hv
  have hm : v ∈ (initSt input).registers := List.getElem?_mem hv
  simpa [initSt] using List.eq_of_mem_replicate hm

/-- Witness for the amended C4 theorem at a concrete cell. -/
theorem initial_state_spec_witness :
    (initSt []).registers[5]? = some 0 ∧ (0 : Nat) = 0 :=
  ⟨by rw [show (initSt []).registers = List.replicate NUM_REGISTERS 0 from rfl,
        List.getElem?_replicate]; norm_num [NUM_REGISTERS],
   (initial_state_spec []).2.2.2 5 0
    (by rw [show (initSt []).registers = List.replicate NUM_REGISTERS 0 from rfl,
          List.getElem?_replicate]; norm_num [NUM_REGISTERS])⟩

/-- **C5** (counterexample): a run of 256 `+` tokens is combined into the
single instruction `Inc(0)` (the `as u8` cast truncates), whose count is not
strictly positive — the claim requires saturation and strictly positive
counts. -/
theorem combine_emits_zero_count :
    combine (List.replicate 256 Token.Inc) = [Instruction.Inc 0] ∧ ¬ (0 < 0) := by
  constructor
  · rw [show (256 : Nat) = 255 + 1 from rfl, List.replicate_succ]
    show combine (Token.Inc :: List.replicate 255 Token.Inc) = [Instruction.Inc 0]
    simp only [combine, chunkBy]
    rw [chunkGo_replicate Token.Inc rfl 255 1]
    rfl
  · decide

/-- **C5** (amended): the combiner collapses a maximal run of `L` identical
combinable tokens into one instruction whose count is `L` truncated to the
representable range (`L % 2 ^ 16` for shifts, `L % 2 ^ 8` for increments), so
counts can be zero; for `+`/`-` runs the observable cell effect of the single
emitted instruction still equals `L` applications of the single-step
semantics because cell arithmetic wraps modulo 256 (for shift runs of length
`≥ 2 ^ 16` the behavior is not preserved). -/
lemma iter_incCell : ∀ (L c : Nat),
    (fun v => incCell v 1)^[L] (c % 256) = (c + L) % 256 := by
  intro L
  induction L with
  | zero => intro c; simp
  | succ L ih =>
    intro c
    rw [Function.iterate_succ_apply]
    show (fun v => incCell v 1)^[L] ((c % 256 + 1) % 256) = (c + (L + 1)) % 256
    rw [Nat.mod_add_mod, ih (c + 1)]
    congr 1
    omega

lemma iter_decCell : ∀ (L c : Nat),
    (fun v => decCell v 1)^[L] (c % 256) = (c + 255 * L) % 256 := by
  intro L
  induction L with
  | zero => intro c; simp
  | succ L ih =>
    intro c
    rw [Function.iterate_succ_apply]
    show (fun v => decCell v 1)^[L] ((c % 256 + 255) % 256) = (c + 255 * (L + 1)) % 256
    rw [Nat.mod_add_mod, ih (c + 255)]
    congr 1
    ring

lemma iter_shlPtr : ∀ (L s : Nat), (fun r => shlPtr r 1)^[L] s = s - L := by
  intro L
  induction L with
  | zero => intro s; simp
  | succ L ih =>
    intro s
    rw [Function.iterate_succ_apply]
    show (fun r => shlPtr r 1)^[L] (s - 1) = s - (L + 1)
    rw [ih (s - 1)]
    omega

lemma iter_shrPtr : ∀ (L s : Nat), (fun r => shrPtr r 1)^[L] s = s + L := by
  intro L
  induction L with
  | zero => intro s; simp
  | succ L ih =>
    intro s
    rw [Function.iterate_succ_apply]
    show (fun r => shrPtr r 1)^[L] (s + 1) = s + (L + 1)
    rw [ih (s + 1)]
    omega

theorem combine_truncates_counts :
    ∀ (L c : Nat), 0 < L →
      (combine (List.replicate L Token.Inc) = [Instruction.Inc (L % 2 ^ 8)] ∧
       combine (List.replicate L Token.Dec) = [Instruction.Dec (L % 2 ^ 8)] ∧
       combine (List.replicate L Token.Shl) = [Instruction.Shl (L % 2 ^ 16)] ∧
       combine (List.replicate L Token.Shr) = [Instruction.Shr (L % 2 ^ 16)]) ∧
      (incCell c (L % 2 ^ 8) = (fun v => incCell v 1)^[L] c ∧
       decCell c (L % 2 ^ 8) = (fun v => decCell v 1)^[L] c) ∧
      (2 ^ 16 ≤ L →
        shlPtr L (L % 2 ^ 16) ≠ (fun r => shlPtr r 1)^[L] L ∧
        shrPtr 0 (L % 2 ^ 16) ≠ (fun r => shrPtr r 1)^[L] 0) := by
  intro L c hL
  obtain ⟨m, rfl⟩ : ∃ m, L = m + 1 := ⟨L - 1, by omega⟩
  have h1m : 1 + m = m + 1 := by omega
  refine ⟨⟨?_, ?_, ?_, ?_⟩, ⟨?_, ?_⟩, ?_⟩
  · rw [List.replicate_succ]
    show combine (Token.Inc :: List.replicate m Token.Inc) =
      [Instruction.Inc ((m + 1) % 2 ^ 8)]
    simp only [combine, chunkBy]
    rw [chunkGo_replicate Token.Inc rfl m 1, h1m]
    rfl
  · rw [List.replicate_succ]
    show combine (Token.Dec :: List.replicate m Token.Dec) =
      [Instruction.Dec ((m + 1) % 2 ^ 8)]
    simp only [combine, chunkBy]
    rw [chunkGo_replicate Token.Dec rfl m 1, h1m]
    rfl
  · rw [List.replicate_succ]
    show combine (Token.Shl :: List.replicate m Token.Shl) =
      [Instruction.Shl ((m + 1) % 2 ^ 16)]
    simp only [combine, chunkBy]
    rw [chunkGo_replicate Token.Shl rfl m 1, h1m]
    rfl
  · rw [List.replicate_succ]
    show combine (Token.Shr :: List.replicate m Token.Shr) =
      [Instruction.Shr ((m + 1) % 2 ^ 16)]
    simp only [combine, chunkBy]
    rw [chunkGo_replicate Token.Shr rfl m 1, h1m]
    rfl
  · rw [Function.iterate_succ_apply]
    show incCell c ((m + 1) % 2 ^ 8) = (fun v => incCell v 1)^[m] ((c + 1) % 256)
    rw [iter_incCell m (c + 1)]
    simp only [incCell]
    omega
  · rw [Function.iterate_succ_apply]
    show decCell c ((m + 1) % 2 ^ 8) = (fun v => decCell v 1)^[m] ((c + 255) % 256)
    rw [iter_decCell m (c + 255)]
    simp only [decCell]
    omega
  · intro h16
    have hmod : (m + 1) % 2 ^ 16 < 2 ^ 16 := Nat.mod_lt _ (by norm_num)
    constructor
    · rw [iter_shlPtr]
      show (m + 1) - (m + 1) % 2 ^ 16 ≠ (m + 1) - (m + 1)
      omega
    · rw [iter_shrPtr]
      show 0 + (m + 1) % 2 ^ 16 ≠ 0 + (m + 1)
      omega

/-- Witness for the amended C5 theorem at run length 2 ^ 16 = 65536 (a
multiple of both representable ranges). -/
theorem combine_truncates_counts_witness :
    0 < 65536 ∧ 2 ^ 16 ≤ 65536 ∧
      ((combine (List.replicate 65536 Token.Inc) =
          [Instruction.Inc (65536 % 2 ^ 8)] ∧
        combine (List.replicate 65536 Token.Dec) =
          [Instruction.Dec (65536 % 2 ^ 8)] ∧
        combine (List.replicate 65536 Token.Shl) =
          [Instruction.Shl (65536 % 2 ^ 16)] ∧
        combine (List.replicate 65536 Token.Shr) =
          [Instruction.Shr (65536 % 2 ^ 16)]) ∧
       (incCell 5 (65536 % 2 ^ 8) = (fun v => incCell v 1)^[65536] 5 ∧
        decCell 5 (65536 % 2 ^ 8) = (fun v => decCell v 1)^[65536] 5) ∧
       (shlPtr 65536 (65536 % 2 ^ 16) ≠ (fun r => shlPtr r 1)^[65536] 65536 ∧
        shrPtr 0 (65536 % 2 ^ 16) ≠ (fun r => shrPtr r 1)^[65536] 0)) :=
  ⟨by decide, by decide,
   ⟨(combine_truncates_counts 65536 5 (by decide)).1,
    (combine_truncates_counts 65536 5 (by decide)).2.1,
    (combine_truncates_counts 65536 5 (by decide)).2.2 (by decide)⟩⟩

/-! ## The arithmetic-loop pass -/

/-- **C6** (counterexample): on the loop `[+-]` — body summary `Diff(0)` —
the pass leaves the code unchanged but emits *no* infinite-loop warning,
because `Diff(0)` is caught by the silent `Diff(_) => return` arm. -/
theorem arithPass_diff0_no_warning :
    arithPass [.JumpZ 0, .Inc 1, .Dec 1, .JumpNz 0] 0 =
      ([.JumpZ 0, .Inc 1, .Dec 1, .JumpNz 0], none) := by
  decide

/-- **C6** (amended): for a well-shaped loop body with net pointer motion
zero, only the summary `ZeroedDiff(d)` with `d ≠ 0` emits the infinite-loop
warning (naming the source range `start - 1 .. end + 1`) and leaves the
instruction sequence unchanged; a summary of `Diff(0)` — e.g. the loop
`[+-]` — also leaves the sequence unchanged but emits no warning. -/
theorem arithPass_warning_cases :
    ∀ (instrs : List Instruction) (i t rel na : Nat),
      instrs[i]? = some (.JumpZ t) →
      findEnd (instrs.drop (i + 1)) = some rel →
      ((∀ d : Int,
          bodyScan 0 (.Diff 0) 0 ((instrs.drop (i + 1)).take rel) =
            some (0, .ZeroedDiff d, na) →
          d ≠ 0 → arithPass instrs i = (instrs, some (i, i + 1 + rel + 1))) ∧
       (bodyScan 0 (.Diff 0) 0 ((instrs.drop (i + 1)).take rel) =
          some (0, .Diff 0, na) →
        arithPass instrs i = (instrs, none))) := by
  intro instrs i t rel na h1 h2
  constructor
  · intro d h3 hd
    simp only [arithPass, h1, h2, h3]
    simp [hd]
  · intro h3
    simp only [arithPass, h1, h2, h3]
    simp

/-- Witness for the amended C6 theorem on the loop `[[-]+]` (after the
zero-loop pass), whose summary is `ZeroedDiff(1)`. -/
theorem arithPass_warning_cases_witness :
    ([Instruction.JumpZ 0, .Zero 0, .Inc 1, .JumpNz 0][0]? =
        some (Instruction.JumpZ 0)) ∧
    findEnd ([Instruction.JumpZ 0, .Zero 0, .Inc 1, .JumpNz 0].drop 1) = some 2 ∧
    (1 : Int) ≠ 0 ∧
    arithPass [Instruction.JumpZ 0, .Zero 0, .Inc 1, .JumpNz 0] 0 =
      ([Instruction.JumpZ 0, .Zero 0, .Inc 1, .JumpNz 0], some (0, 4)) :=
  ⟨by decide, by decide, by decide,
   ((arithPass_warning_cases [Instruction.JumpZ 0, .Zero 0, .Inc 1, .JumpNz 0]
      0 0 2 0 (by decide) (by decide)).1 1 (by decide) (by decide))⟩

/-- **C7** (counterexample): a zero-loop whose `JumpNz` is the last
instruction of the program is *not* rewritten — the sweep condition
`i + 3 < instructions.len()` already fails at `i = 0` for the 3-instruction
program `[-]`, so the pass returns it unchanged instead of `[Zero(0)]`. -/
theorem zeroPass_misses_trailing_pattern :
    zeroPass [.JumpZ 0, .Dec 1, .JumpNz 0] = [.JumpZ 0, .Dec 1, .JumpNz 0] ∧
    zeroPass [.JumpZ 0, .Dec 1, .JumpNz 0] ≠ [.Zero 0] := by
  constructor <;> decide

/-- **C8** (counterexample): the IR has no `SubMul` case at all; on the loop
`[->--<]` the pass emits `AddMul(1, -2)` for the body instruction `Dec(2)` at
offset 1 — a multiplier of `-2`, which is not `≥ 2` and not drawn from
`1..=255` as the claim states. -/
theorem arithPass_emits_negative_multiplier :
    (arithPass [.JumpZ 0, .Dec 1, .Shr 1, .Dec 2, .Shl 1, .JumpNz 0] 0).1 =
      [.AddMul 1 (-2), .Zero 0] ∧ ¬ ((2 : Int) ≤ -2) := by
  constructor <;> decide

/-- **C8** (amended): in the copy-loop rewrite a body instruction `Dec(n)`
with `n ≥ 2` at nonzero offset is emitted as `AddMul(offset, -n)`, and —
provided all body `Inc`/`Dec` counts lie in `1..=255` — every `AddMul`
emitted by the rewrite has a multiplier `m` with `2 ≤ |m| ≤ 255` (a
multiplier of `±1` is encoded as `Add`/`Sub`). -/
theorem buildReps_multiplier_range :
    (∀ (body : List Instruction) (offset o m : Int),
      (∀ n : Nat, (Instruction.Inc n ∈ body ∨ Instruction.Dec n ∈ body) →
        1 ≤ n ∧ n ≤ 255) →
      Instruction.AddMul o m ∈ buildReps offset body →
      (2 ≤ m ∧ m ≤ 255) ∨ (-255 ≤ m ∧ m ≤ -2)) ∧
    (∀ (offset : Int) (n : Nat) (rest : List Instruction),
      offset ≠ 0 → 2 ≤ n →
      buildReps offset (.Dec n :: rest) =
        .AddMul offset (-(n : Int)) :: buildReps offset rest) := by
  constructor
  · intro body
    induction body with
    | nil => intro offset o m _ hmem; simp [buildReps] at hmem
    | cons inst rest ih =>
      intro offset o m hn hmem
      have hn' : ∀ n : Nat,
          (Instruction.Inc n ∈ rest ∨ Instruction.Dec n ∈ rest) →
          1 ≤ n ∧ n ≤ 255 := fun n hm =>
        hn n (hm.imp (List.mem_cons_of_mem _) (List.mem_cons_of_mem _))
      cases inst with
      | Shl k => exact ih _ o m hn' (by simpa [buildReps] using hmem)
      | Shr k => exact ih _ o m hn' (by simpa [buildReps] using hmem)
      | Inc k =>
        simp only [buildReps] at hmem
        split at hmem
        · rcases List.mem_cons.mp hmem with heq | hmem'
          · have hk := hn k (Or.inl (List.mem_cons_self _ _))
            split at heq
            · cases heq
            · cases heq
              left
              omega
          · exact ih _ o m hn' hmem'
        · exact ih _ o m hn' hmem
      | Dec k =>
        simp only [buildReps] at hmem
        split at hmem
        · rcases List.mem_cons.mp hmem with heq | hmem'
          · have hk := hn k (Or.inr (List.mem_cons_self _ _))
            split at heq
            · cases heq
            · cases heq
              right
              omega
          · exact ih _ o m hn' hmem'
        · exact ih _ o m hn' hmem
      | Zero k =>
        simp only [buildReps] at hmem
        split at hmem
        · rcases List.mem_cons.mp hmem with heq | hmem'
          · cases heq
          · exact ih _ o m hn' hmem'
        · exact ih _ o m hn' hmem
      | Output => simp [buildReps] at hmem
      | Input => simp [buildReps] at hmem
      | JumpZ t => simp [buildReps] at hmem
      | JumpNz t => simp [buildReps] at hmem
      | Add k => simp [buildReps] at hmem
      | Sub k => simp [buildReps] at hmem
      | AddMul k l => simp [buildReps] at hmem
  · intro offset n rest hoff hn
    have hne : n ≠ 1 := by omega
    simp [buildReps, hoff, hne]

/-- Witness for the amended C8 theorem at `Dec(2)` at offset 1. -/
theorem buildReps_multiplier_range_witness :
    (1 : Int) ≠ 0 ∧ 2 ≤ 2 ∧
    buildReps 1 [.Dec 2] = [.AddMul 1 (-2)] :=
  ⟨by decide, by decide, by
    rw [buildReps_multiplier_range.2 1 2 [] (by decide) (by decide)]; decide⟩

/-- **C2** (code-bug evidence): on the loop `[->[-]<]` (after the zero-loop
pass has turned the inner `[-]` into `Zero(0)`) the rewrite emits the
*unguarded* `[Zero(1), Zero(0)]` — no `JumpZ`/`JumpNz` guard exists in the
output.  Starting from cells `(0, 7)` the original linked loop leaves the
tape at `(0, 7)` (the loop body never runs), while the rewritten code
destroys cell 1, ending at `(0, 0)`. -/
theorem arithPass_zero_unguarded :
    (arithPass [.JumpZ 0, .Dec 1, .Shr 1, .Zero 0, .Shl 1, .JumpNz 0] 0).1 =
      [.Zero 1, .Zero 0] ∧
    link [.JumpZ 0, .Dec 1, .Shr 1, .Zero 0, .Shl 1, .JumpNz 0] =
      some [.JumpZ 6, .Dec 1, .Shr 1, .Zero 0, .Shl 1, .JumpNz 1] ∧
    (runGo [.JumpZ 6, .Dec 1, .Shr 1, .Zero 0, .Shl 1, .JumpNz 1] 20 0
        { rp := 0, registers := [0, 7], inp := [], out := [] }).map St.registers =
      some [0, 7] ∧
    (runGo [.Zero 1, .Zero 0] 20 0
        { rp := 0, registers := [0, 7], inp := [], out := [] }).map St.registers =
      some [0, 0] := by
  refine ⟨by decide, by decide, by decide, by decide⟩

set_option maxRecDepth 4000 in
/-- **C1** (code-bug evidence): optimization is not semantics-preserving.
For the program `>+<[->[-]<]>.` (set cell 1 to 1, run a copy loop guarded by
the zero cell 0, print cell 1) the unoptimized interpretation outputs the
byte 1, while interpreting the optimized program outputs the byte 0: the
arithmetic-loop pass rewrote the inner `Zero` without the guard required
when the induction cell is already 0. -/
theorem optimize_changes_observable_output :
    pipeOut (optimize (combine (tokenize ">+<[->[-]<]>.".data))) [] 100 =
      some [0] ∧
    pipeOut (combine (tokenize ">+<[->[-]<]>.".data)) [] 100 = some [1] := by
  constructor <;> decide

/-- **C10**: the arithmetic-loop pass either leaves the instruction sequence
entirely unchanged (every abort path: no `JumpZ` at `i`, no `JumpNz` before
a nested `JumpZ`, a forbidden body instruction, nonzero net offset, or a
summary other than `Diff(-1)` — including the warning case), or the body
summary is `Diff(-1)` and the result is exactly the splice of the
replacements over `[i, end]`. -/
theorem arithPass_frame :
    ∀ (instrs : List Instruction) (i : Nat),
      (arithPass instrs i).1 = instrs ∨
      (∃ (t rel na : Nat),
        instrs[i]? = some (.JumpZ t) ∧
        findEnd (instrs.drop (i + 1)) = some rel ∧
        bodyScan 0 (.Diff 0) 0 ((instrs.drop (i + 1)).take rel) =
          some (0, .Diff (-1), na) ∧
        (arithPass instrs i).1 =
          instrs.take i ++
            (buildReps 0 ((instrs.drop (i + 1)).take rel) ++ [.Zero 0]) ++
            instrs.drop (i + 1 + rel + 1)) := by
  intro instrs i
  unfold arithPass
  split
  case _ t heq =>
    split
    case _ => exact Or.inl rfl
    case _ rel hfe =>
      split
      case _ => exact Or.inl rfl
      case _ offset diff na hbs =>
        split
        case isTrue => exact Or.inl rfl
        case isFalse hoff =>
          have hoff0 : offset = 0 := by
            by_contra hc
            exact hoff hc
          subst hoff0
          split
          case h_1 d =>
            split
            case isTrue hd =>
              subst hd
              exact Or.inr ⟨t, rel, na, heq, hfe, hbs, rfl⟩
            case isFalse => exact Or.inl rfl
          case h_2 => exact Or.inl rfl
          case h_3 d =>
            split
            case isTrue => exact Or.inl rfl
            case isFalse => exact Or.inl rfl
  case _ => exact Or.inl rfl

/-! ## The zero-loop pass: no interior pattern survives the sweep -/

lemma patAt_congr {l l' : List Instruction} {j : Nat}
    (h1 : l'[j]? = l[j]?) (h2 : l'[j + 1]? = l[j + 1]?)
    (h3 : l'[j + 2]? = l[j + 2]?) : patAt l' j = patAt l j := by
  unfold patAt
  rw [h1, h2, h3]

lemma patAt_false_first {l : List Instruction} {j : Nat}
    (h : ∀ t, l[j]? ≠ some (.JumpZ t)) : patAt l j = false := by
  unfold patAt
  split
  · exact absurd (by assumption) (h _)
  · rfl

lemma patAt_false_second {l : List Instruction} {j : Nat}
    (h : l[j + 1]? ≠ some (.Dec 1)) : patAt l j = false := by
  unfold patAt
  split
  · exact absurd (by assumption) h
  · rfl

lemma patAt_false_third {l : List Instruction} {j : Nat}
    (h : ∀ t, l[j + 2]? ≠ some (.JumpNz t)) : patAt l j = false := by
  unfold patAt
  split
  · exact absurd (by assumption) (h _)
  · rfl

lemma splice_get_lt {l : List Instruction} {i k : Nat}
    (hi : i ≤ l.length) (hk : k < i) :
    (l.take i ++ .Zero 0 :: l.drop (i + 3))[k]? = l[k]? := by
  have hlt : k < (l.take i).length := by
    simp only [List.length_take]
    omega
  rw [List.getElem?_append_left hlt, List.getElem?_take_of_lt hk]

lemma splice_get_eq {l : List Instruction} {i : Nat} (hi : i ≤ l.length) :
    (l.take i ++ .Zero 0 :: l.drop (i + 3))[i]? = some (.Zero 0) := by
  have hlen : (l.take i).length = i := by
    simp only [List.length_take]
    omega
  rw [List.getElem?_append_right (by omega), hlen]
  simp

lemma splice_get_gt {l : List Instruction} {i k : Nat} (hi : i ≤ l.length) :
    (l.take i ++ .Zero 0 :: l.drop (i + 3))[i + 1 + k]? = l[i + 3 + k]? := by
  have hlen : (l.take i).length = i := by
    simp only [List.length_take]
    omega
  rw [List.getElem?_append_right (by omega), hlen]
  have h1 : i + 1 + k - i = k + 1 := by omega
  rw [h1, List.getElem?_cons_succ, List.getElem?_drop]

lemma zeroPassGo_no_pattern :
    ∀ (fuel : Nat) (instrs : List Instruction) (i : Nat),
      instrs.length - i ≤ fuel →
      (∀ j, j < i → j + 3 < instrs.length → patAt instrs j = false) →
      ∀ j, j + 3 < (zeroPassGo fuel instrs i).length →
        patAt (zeroPassGo fuel instrs i) j = false := by
  intro fuel
  induction fuel with
  | zero =>
    intro instrs i hf hinv j hj
    simp only [zeroPassGo] at hj ⊢
    exact hinv j (by omega) hj
  | succ fuel ih =>
    intro instrs i hf hinv j hj
    simp only [zeroPassGo] at hj ⊢
    by_cases hcond : i + 3 < instrs.length
    · rw [if_pos hcond] at hj ⊢
      by_cases hpat : patAt instrs i = true
      · rw [if_pos hpat] at hj ⊢
        have hile : i ≤ instrs.length := by omega
        have hlen : (instrs.take i ++ .Zero 0 :: instrs.drop (i + 3)).length
            = instrs.length - 2 := by
          simp only [List.length_append, List.length_take, List.length_cons,
            List.length_drop]
          omega
        apply ih _ _ ?_ ?_ j hj
        · omega
        · intro k hk hk3
          rcases Nat.lt_or_ge i (k + 3) with hpos | hpos
          · -- i ∈ {k, k + 1, k + 2}: the freshly written Zero(0) breaks
            -- any candidate window
            rcases Nat.lt_or_ge i (k + 1) with hi1 | hi1
            · have hik : i = k := by omega
              apply patAt_false_first
              intro t
              rw [← hik, splice_get_eq hile]
              intro hcontra
              cases hcontra
            · rcases Nat.lt_or_ge i (k + 2) with hi2 | hi2
              · have hik : i = k + 1 := by omega
                apply patAt_false_second
                rw [← hik, splice_get_eq hile]
                intro hcontra
                cases hcontra
              · have hik : i = k + 2 := by omega
                apply patAt_false_third
                intro t
                rw [← hik, splice_get_eq hile]
                intro hcontra
                cases hcontra
          · -- the window lies strictly before i: unchanged, use the invariant
            have e1 : (instrs.take i ++ .Zero 0 :: instrs.drop (i + 3))[k]? =
                instrs[k]? := splice_get_lt hile (by omega)
            have e2 : (instrs.take i ++ .Zero 0 :: instrs.drop (i + 3))[k + 1]? =
                instrs[k + 1]? := splice_get_lt hile (by omega)
            have e3 : (instrs.take i ++ .Zero 0 :: instrs.drop (i + 3))[k + 2]? =
                instrs[k + 2]? := splice_get_lt hile (by omega)
            rw [patAt_congr e1 e2 e3]
            exact hinv k (by omega) (by omega)
      · rw [if_neg hpat] at hj ⊢
        apply ih _ _ (by omega) ?_ j hj
        intro k hk hk3
        rcases Nat.lt_or_ge k i with h | h
        · exact hinv k h hk3
        · have hik : k = i := by omega
          subst hik
          exact eq_false_of_ne_true hpat
    · rw [if_neg hcond] at hj ⊢
      exact hinv j (by omega) hj

/-- **C7** (amended): after the zero-loop pass no occurrence of the pattern
`JumpZ(_), Dec(1), JumpNz(_)` survives at any window examined by the sweep
(`j + 3 < len`) — i.e. every occurrence is rewritten to `Zero(0)` except one
whose `JumpNz` is the last instruction of the program; concretely, `[-]`
followed by further code becomes `Zero(0)`. -/
theorem zeroPass_rewrites_interior_patterns :
    (∀ (instrs : List Instruction) (j : Nat),
      j + 3 < (zeroPass instrs).length → patAt (zeroPass instrs) j = false) ∧
    zeroPass [.JumpZ 0, .Dec 1, .JumpNz 0, .Output] = [.Zero 0, .Output] := by
  constructor
  · intro instrs j hj
    exact zeroPassGo_no_pattern instrs.length instrs 0 (by omega)
      (fun k hk _ => absurd hk (Nat.not_lt_zero k)) j hj
  · decide

/-- Witness for the amended C7 theorem on a program with an interior
zero-loop. -/
theorem zeroPass_rewrites_interior_patterns_witness :
    0 + 3 < (zeroPass [Instruction.JumpZ 0, .Dec 1, .JumpNz 0, .Output,
      .Output, .Output, .Output]).length ∧
    patAt (zeroPass [Instruction.JumpZ 0, .Dec 1, .JumpNz 0, .Output,
      .Output, .Output, .Output]) 0 = false :=
  ⟨by decide,
   zeroPass_rewrites_interior_patterns.1
    [Instruction.JumpZ 0, .Dec 1, .JumpNz 0, .Output, .Output, .Output,
      .Output] 0 (by decide)⟩


/-! ## The jump linker -/

lemma linkGo_spec :
    ∀ (rest : List Instruction) (i : Nat) (stack : List Nat)
      (rest' : List Instruction) (ts : List Nat),
      linkGo i stack rest = some (rest', ts) →
      ts.length = stack.length ∧
      (∀ d : Nat, bTrack d rest' = bTrack d rest) ∧
      (∀ (j t : Nat), rest'[j]? = some (.JumpZ t) →
        i + j + 2 ≤ t ∧ rest'[t - 1 - i]? = some (.JumpNz (i + j + 1))) ∧
      (∀ (k o : Nat), stack[k]? = some o →
        ∃ c : Nat, ts[k]? = some (c + 1) ∧ i ≤ c ∧
          rest'[c - i]? = some (.JumpNz (o + 1))) := by
  intro rest
  induction rest with
  | nil =>
    intro i stack rest' ts h
    cases stack with
    | nil =>
      simp only [linkGo, List.isEmpty_nil, if_true, Option.some.injEq,
        Prod.mk.injEq] at h
      obtain ⟨h1, h2⟩ := h
      subst h1
      subst h2
      refine ⟨rfl, fun d => rfl, ?_, ?_⟩
      · intro j t hj
        simp at hj
      · intro k o hk
        simp at hk
    | cons o st =>
      simp [linkGo] at h
  | cons inst rest ih =>
    intro i stack rest' ts h
    cases inst
    case JumpZ t0 =>
      cases hres : linkGo (i + 1) (i :: stack) rest with
      | none =>
        simp only [linkGo, hres] at h
        exact Option.noConfusion h
      | some p =>
        obtain ⟨r0, ts1⟩ := p
        cases ts1 with
        | nil =>
          simp only [linkGo, hres] at h
          exact Option.noConfusion h
        | cons t1 ts1 =>
          simp only [linkGo, hres, Option.some.injEq, Prod.mk.injEq] at h
          obtain ⟨h1, h2⟩ := h
          subst h1
          subst h2
          obtain ⟨ihlen, ihb, ihz, ihs⟩ := ih (i + 1) (i :: stack) r0 (t1 :: ts1) hres
          refine ⟨?_, ?_, ?_, ?_⟩
          · simpa using ihlen
          · intro d
            exact ihb (d + 1)
          · intro j t hj
            cases j with
            | zero =>
              rw [List.getElem?_cons_zero] at hj
              obtain heq : t1 = t := by simpa using hj
              subst heq
              obtain ⟨c, hc1, hc2, hc3⟩ := ihs 0 i (by simp)
              rw [List.getElem?_cons_zero] at hc1
              have h1c : t1 = c + 1 := by simpa using hc1
              constructor
              · omega
              · have hidx : t1 - 1 - i = (c - (i + 1)) + 1 := by omega
                rw [hidx, List.getElem?_cons_succ]
                simpa using hc3
            | succ j =>
              rw [List.getElem?_cons_succ] at hj
              obtain ⟨hle, hget⟩ := ihz j t hj
              refine ⟨by omega, ?_⟩
              have hidx : t - 1 - i = (t - 1 - (i + 1)) + 1 := by omega
              rw [hidx, List.getElem?_cons_succ]
              have harg : i + 1 + j + 1 = i + (j + 1) + 1 := by omega
              rw [harg] at hget
              exact hget
          · intro k o hk
            obtain ⟨c, hc1, hc2, hc3⟩ := ihs (k + 1) o (by simpa using hk)
            rw [List.getElem?_cons_succ] at hc1
            refine ⟨c, hc1, by omega, ?_⟩
            have hidx : c - i = (c - (i + 1)) + 1 := by omega
            rw [hidx, List.getElem?_cons_succ]
            exact hc3
    case JumpNz t0 =>
      cases stack with
      | nil =>
        simp [linkGo] at h
      | cons o st =>
        cases hres : linkGo (i + 1) st rest with
        | none =>
          simp only [linkGo, hres] at h
          exact Option.noConfusion h
        | some p =>
          obtain ⟨r0, ts0⟩ := p
          simp only [linkGo, hres, Option.some.injEq, Prod.mk.injEq] at h
          obtain ⟨h1, h2⟩ := h
          subst h1
          subst h2
          obtain ⟨ihlen, ihb, ihz, ihs⟩ := ih (i + 1) st r0 ts0 hres
          refine ⟨?_, ?_, ?_, ?_⟩
          · simpa using ihlen
          · intro d
            cases d with
            | zero => rfl
            | succ d' => exact ihb d'
          · intro j t hj
            cases j with
            | zero =>
              rw [List.getElem?_cons_zero] at hj
              simp at hj
            | succ j =>
              rw [List.getElem?_cons_succ] at hj
              obtain ⟨hle, hget⟩ := ihz j t hj
              refine ⟨by omega, ?_⟩
              have hidx : t - 1 - i = (t - 1 - (i + 1)) + 1 := by omega
              rw [hidx, List.getElem?_cons_succ]
              have harg : i + 1 + j + 1 = i + (j + 1) + 1 := by omega
              rw [harg] at hget
              exact hget
          · intro k o' hk
            cases k with
            | zero =>
              rw [List.getElem?_cons_zero] at hk
              obtain rfl : o = o' := by simpa using hk
              refine ⟨i, ?_, le_refl i, ?_⟩
              · rw [List.getElem?_cons_zero]
              · have hidx : i - i = 0 := by omega
                rw [hidx, List.getElem?_cons_zero]
            | succ k =>
              rw [List.getElem?_cons_succ] at hk
              obtain ⟨c, hc1, hc2, hc3⟩ := ihs k o' hk
              rw [← List.getElem?_cons_succ (a := i + 1)] at hc1
              refine ⟨c, hc1, by omega, ?_⟩
              have hidx : c - i = (c - (i + 1)) + 1 := by omega
              rw [hidx, List.getElem?_cons_succ]
              exact hc3
    all_goals (
      cases hres : linkGo (i + 1) stack rest with
      | none =>
        simp only [linkGo, hres] at h
        exact Option.noConfusion h
      | some p =>
        obtain ⟨r0, ts0⟩ := p
        simp only [linkGo, hres, Option.some.injEq, Prod.mk.injEq] at h
        obtain ⟨h1, h2⟩ := h
        subst h1
        subst h2
        obtain ⟨ihlen, ihb, ihz, ihs⟩ := ih (i + 1) stack r0 ts0 hres
        refine ⟨ihlen, ?_, ?_, ?_⟩
        · intro d
          exact ihb d
        · intro j t hj
          cases j with
          | zero =>
            rw [List.getElem?_cons_zero] at hj
            simp at hj
          | succ j =>
            rw [List.getElem?_cons_succ] at hj
            obtain ⟨hle, hget⟩ := ihz j t hj
            refine ⟨by omega, ?_⟩
            have hidx : t - 1 - i = (t - 1 - (i + 1)) + 1 := by omega
            rw [hidx, List.getElem?_cons_succ]
            have harg : i + 1 + j + 1 = i + (j + 1) + 1 := by omega
            rw [harg] at hget
            exact hget
        · intro k o' hk
          obtain ⟨c, hc1, hc2, hc3⟩ := ihs k o' hk
          refine ⟨c, hc1, by omega, ?_⟩
          have hidx : c - i = (c - (i + 1)) + 1 := by omega
          rw [hidx, List.getElem?_cons_succ]
          exact hc3)


lemma linkGo_isSome :
    ∀ (rest : List Instruction) (i : Nat) (stack : List Nat),
      (linkGo i stack rest).isSome = bTrack stack.length rest := by
  intro rest
  induction rest with
  | nil =>
    intro i stack
    cases stack <;> simp [linkGo, bTrack]
  | cons inst rest ih =>
    intro i stack
    cases inst
    case JumpZ t0 =>
      cases hres : linkGo (i + 1) (i :: stack) rest with
      | none =>
        have hb := ih (i + 1) (i :: stack)
        rw [hres] at hb
        simp only [Option.isSome_none, List.length_cons] at hb
        simp [linkGo, bTrack, hres, ← hb]
      | some p =>
        obtain ⟨r0, ts1⟩ := p
        have hlen := (linkGo_spec rest (i + 1) (i :: stack) r0 ts1 hres).1
        cases ts1 with
        | nil => simp at hlen
        | cons t1 ts1 =>
          have hb := ih (i + 1) (i :: stack)
          rw [hres] at hb
          simp only [Option.isSome_some, List.length_cons] at hb
          simp [linkGo, bTrack, hres, ← hb]
    case JumpNz t0 =>
      cases stack with
      | nil => simp [linkGo, bTrack]
      | cons o st =>
        cases hres : linkGo (i + 1) st rest with
        | none =>
          have hb := ih (i + 1) st
          rw [hres] at hb
          simp only [Option.isSome_none] at hb
          simp [linkGo, bTrack, hres, ← hb]
        | some p =>
          obtain ⟨r0, ts0⟩ := p
          have hb := ih (i + 1) st
          rw [hres] at hb
          simp only [Option.isSome_some] at hb
          simp [linkGo, bTrack, hres, ← hb]
    all_goals (
      cases hres : linkGo (i + 1) stack rest with
      | none =>
        have hb := ih (i + 1) stack
        rw [hres] at hb
        simp only [Option.isSome_none] at hb
        simp [linkGo, bTrack, hres, ← hb]
      | some p =>
        obtain ⟨r0, ts0⟩ := p
        have hb := ih (i + 1) stack
        rw [hres] at hb
        simp only [Option.isSome_some] at hb
        simp [linkGo, bTrack, hres, ← hb])

/-- **C9**: after the linker stage, every `JumpZ` at index `i` with concrete
target `t` has `t ≥ 1`, the instruction at `t - 1` is a `JumpNz` whose own
target is `i + 1`, and bracket nesting depth returns to 0 at the end of the
program; linking fails (the source panics with "mismatched brackets",
modelled as `none`) exactly on unbalanced bracket structure (an empty pop or
a non-empty residual stack). -/
theorem linker_pairs_brackets :
    (∀ (instrs result : List Instruction), link instrs = some result →
      (∀ (i t : Nat), result[i]? = some (.JumpZ t) →
        1 ≤ t ∧ result[t - 1]? = some (.JumpNz (i + 1))) ∧
      bTrack 0 result = true) ∧
    (∀ instrs : List Instruction, link instrs = none ↔ bTrack 0 instrs = false) := by
  constructor
  · intro instrs result h
    unfold link at h
    cases hq : linkGo 0 [] instrs with
    | none =>
      rw [hq] at h
      exact Option.noConfusion h
    | some p =>
      obtain ⟨rest', ts⟩ := p
      rw [hq] at h
      have hres' : rest' = result := by simpa using h
      subst hres'
      obtain ⟨hlen, hb, hz, hs⟩ := linkGo_spec instrs 0 [] rest' ts hq
      constructor
      · intro i t hi
        obtain ⟨hle, hget⟩ := hz i t hi
        refine ⟨by omega, ?_⟩
        simpa using hget
      · rw [hb 0]
        have hsome := linkGo_isSome instrs 0 []
        rw [hq] at hsome
        simpa using hsome.symm
  · intro instrs
    constructor
    · intro h
      have hsome := linkGo_isSome instrs 0 []
      unfold link at h
      cases hq : linkGo 0 [] instrs with
      | none =>
        rw [hq] at hsome
        simpa using hsome.symm
      | some p =>
        rw [hq] at h
        simp at h
    · intro h
      have hsome := linkGo_isSome instrs 0 []
      simp only [List.length_nil] at hsome
      rw [h] at hsome
      unfold link
      cases hq : linkGo 0 [] instrs with
      | none => rfl
      | some p =>
        rw [hq] at hsome
        simp at hsome

/-- Witness for the C9 theorem on the linked program `[+]`. -/
theorem linker_pairs_brackets_witness :
    link [Instruction.JumpZ 0, .Inc 1, .JumpNz 0] =
      some [Instruction.JumpZ 3, .Inc 1, .JumpNz 1] ∧
    (1 ≤ 3 ∧ [Instruction.JumpZ 3, .Inc 1, .JumpNz 1][3 - 1]? =
      some (Instruction.JumpNz (0 + 1))) ∧
    bTrack 0 [Instruction.JumpZ 3, .Inc 1, .JumpNz 1] = true :=
  ⟨by decide,
   (linker_pairs_brackets.1 [Instruction.JumpZ 0, .Inc 1, .JumpNz 0]
      [Instruction.JumpZ 3, .Inc 1, .JumpNz 1] (by decide)).1 0 3 (by decide),
   (linker_pairs_brackets.1 [Instruction.JumpZ 0, .Inc 1, .JumpNz 0]
      [Instruction.JumpZ 3, .Inc 1, .JumpNz 1] (by decide)).2⟩


/-! ## The spec-modelled DCE pass -/

lemma dceGo_fuel :
    ∀ (f1 f2 : Nat) (tape : Nat → Nat) (p : Nat)
      (done rest : List Instruction),
      rest.length ≤ f1 → rest.length ≤ f2 →
      dceGo f1 tape p done rest = dceGo f2 tape p done rest := by
  intro f1
  induction f1 with
  | zero =>
    intro f2 tape p done rest h1 h2
    have hnil : rest = [] := List.eq_nil_of_length_eq_zero (by omega)
    subst hnil
    cases f2 with
    | zero => rfl
    | succ f2' => simp [dceGo]
  | succ f1 ih =>
    intro f2 tape p done rest h1 h2
    cases rest with
    | nil =>
      cases f2 with
      | zero => simp [dceGo]
      | succ f2' => rfl
    | cons inst rest' =>
      cases f2 with
      | zero => simp at h2
      | succ f2' =>
        have hb1 : rest'.length ≤ f1 := by simp at h1; omega
        have hb2 : rest'.length ≤ f2' := by simp at h2; omega
        cases inst
        case JumpZ t0 =>
          simp only [dceGo]
          by_cases hz : tape p = 0
          · rw [if_pos hz, if_pos hz]
            cases hm : matchRel 0 rest' with
            | none => rfl
            | some rel =>
              apply ih f2' tape p done (rest'.drop (rel + 1))
              · simp only [List.length_drop]
                omega
              · simp only [List.length_drop]
                omega
          · rw [if_neg hz, if_neg hz]
        case JumpNz t0 => rfl
        case Output => rfl
        case Input => rfl
        all_goals (
          simp only [dceGo]
          exact ih f2' _ _ _ rest' hb1 hb2)

/-- **C3** (the DCE pass is modelled from spec §4.5; the source has no such
pass): when symbolic execution reaches a `JumpZ` whose simulated cell is
zero, the whole range from the `JumpZ` through its matching `JumpNz`
inclusive is deleted and execution continues at the instruction now
occupying that index; in particular a program beginning with a loop over the
initially-zero cell — e.g. `[+]`, i.e. `JumpZ, Inc(n), JumpNz` — loses the
entire loop: running DCE on the loop followed by any remainder equals
running DCE on the remainder alone. -/
theorem dce_skips_zero_loops :
    (∀ (fuel : Nat) (tape : Nat → Nat) (p : Nat) (done : List Instruction)
        (t rel : Nat) (rest' : List Instruction),
      tape p = 0 → matchRel 0 rest' = some rel →
      dceGo (fuel + 1) tape p done (.JumpZ t :: rest') =
        dceGo fuel tape p done (rest'.drop (rel + 1))) ∧
    (∀ (t n u : Nat) (rest : List Instruction),
      dce (.JumpZ t :: .Inc n :: .JumpNz u :: rest) = dce rest) := by
  constructor
  · intro fuel tape p done t rel rest' hz hm
    simp only [dceGo, hz, hm]
    simp
  · intro t n u rest
    have hm : matchRel 0 (Instruction.Inc n :: .JumpNz u :: rest) = some 1 := rfl
    have hz : zeroTape 0 = 0 := rfl
    show dceGo (Instruction.JumpZ t :: .Inc n :: .JumpNz u :: rest).length
      zeroTape 0 [] (.JumpZ t :: .Inc n :: .JumpNz u :: rest) = dce rest
    have hlen : (Instruction.JumpZ t :: .Inc n :: .JumpNz u :: rest).length
        = rest.length + 2 + 1 := by simp
    rw [hlen]
    simp only [dceGo, hz, hm]
    simp only [eq_self_iff_true, if_true, List.drop_succ_cons, List.drop_zero]
    show dceGo (rest.length + 2) zeroTape 0 [] rest = dce rest
    exact dceGo_fuel (rest.length + 2) rest.length zeroTape 0 [] rest
      (by omega) (le_refl _)

/-- Witness for the C3 theorem at a concrete one-instruction loop. -/
theorem dce_skips_zero_loops_witness :
    zeroTape 0 = 0 ∧ matchRel 0 [Instruction.JumpNz 0] = some 0 ∧
    dceGo 1 zeroTape 0 [] [Instruction.JumpZ 0, .JumpNz 0] =
      dceGo 0 zeroTape 0 [] ([Instruction.JumpNz 0].drop 1) :=
  ⟨rfl, rfl, dce_skips_zero_loops.1 0 zeroTape 0 [] 0 0 [Instruction.JumpNz 0] rfl rfl⟩

end BF
